import Mathlib

/-!
Verification of the Biomarker Extraction & Risk Assessment Engine
(`server/biomarker_analyzer.py`).

The Python module is shallowly embedded below:
* text is `List Char`; numeric values are `ℚ` (decimal literals in the
  source are exact decimals, modelled exactly);
* the regular expression `([<>]?\s*[0-9]{1,3}(?:[\.,][0-9]+)?)` used by
  `extract_biomarkers_from_text` is embedded as an explicit matcher that
  enumerates the capture-group alternatives in backtracking priority
  order (`numTokenCands`), and the two scan patterns
  (name-then-number within 60 chars, number-then-name within 20 chars)
  are embedded as left-to-right searches over suffixes;
* Python `float(...)` on the strings that can occur here is embedded as
  `parseDecimal` (whitespace-stripped optional sign and decimal digits);
* the optional Google GenAI path is embedded over an environment record
  (`GenAIEnv`) that carries the collaborator outcomes (client present,
  credentials, chat / generate_text responses, JSON located and parsed),
  with `Except` modelling exceptions;
* fallible steps return `Option` / `Except`; `try/except` is a `match`.
-/

/-- ASCII lower-casing as used by `re.IGNORECASE` on the registry's
alphabet; the one non-ASCII cased letter appearing in an alias
(`'Î'`, U+00CE) is mapped to its lowercase form as Python does. -/
def toLowerPy (c : Char) : Char :=
  if 'A' ≤ c ∧ c ≤ 'Z' then Char.ofNat (c.toNat + 32)
  else if c = 'Î' then 'î' else c

/-- The characters matched by the regex class `\s` (and stripped by
Python `float` / `str.strip`) that can occur in this analysis. -/
def isWS (c : Char) : Bool :=
  c = ' ' || c = '\t' || c = '\n' || c = '\r' || c = '\x0b' || c = '\x0c'

/-- The regex class `[0-9]`. -/
def isDigitC (c : Char) : Bool := '0' ≤ c && c ≤ '9'

/-- Split a list at the first character failing `p` (run, remainder). -/
def splitWhile (p : Char → Bool) : List Char → List Char × List Char
  | [] => ([], [])
  | c :: cs =>
    if p c then
      let r := splitWhile p cs
      (c :: r.1, r.2)
    else ([], c :: cs)

/-- All ways to split a list into a nonempty front part and a back part,
front parts longest first: the backtracking order of a greedy
`{1,n}` / `+` quantifier over the whole run. -/
def splitsDesc : List Char → List (List Char × List Char)
  | [] => []
  | c :: cs => (splitsDesc cs).map (fun pq => (c :: pq.1, pq.2)) ++ [([c], cs)]

/-- Alternatives of the optional fraction `(?:[\.,][0-9]+)?` at a given
suffix, in backtracking priority order (with-fraction, longest digit run
first; then the empty alternative). Each entry is (consumed, rest). -/
def fracCands (s : List Char) : List (List Char × List Char) :=
  match s with
  | sep :: r2 =>
    if sep = '.' ∨ sep = ',' then
      let fd := splitWhile isDigitC r2
      ((splitsDesc fd.1).map (fun pq => (sep :: pq.1, pq.2 ++ fd.2))) ++ [([], s)]
    else [([], s)]
  | [] => [([], [])]

/-- Alternatives of `\s*[0-9]{1,3}(?:[\.,][0-9]+)?` at a suffix, in
backtracking priority order.  `\s*` is taken greedily; a shorter
whitespace run can never lead to a match (the next element `[0-9]`
would have to match a whitespace character), so it contributes no
alternative. -/
def coreCands (s : List Char) : List (List Char × List Char) :=
  let w := splitWhile isWS s
  let d3 := splitWhile isDigitC w.2
  let dTake := d3.1.take 3
  let dRest := d3.1.drop 3 ++ d3.2
  if dTake = [] then []
  else
    (splitsDesc dTake).flatMap (fun dp =>
      if dp.2 = [] then
        (fracCands dRest).map (fun fr => (w.1 ++ dp.1 ++ fr.1, fr.2))
      else
        [(w.1 ++ dp.1, dp.2 ++ dRest)])

/-- Alternatives of the full capture group
`[<>]?\s*[0-9]{1,3}(?:[\.,][0-9]+)?` at a suffix, in backtracking
priority order (the greedy `[<>]?` first consumes a bound prefix when
one is present, then falls back to the empty alternative). Each entry
is (captured token, rest of the text). -/
def numTokenCands (s : List Char) : List (List Char × List Char) :=
  match s with
  | c :: cs =>
    if c = '<' ∨ c = '>' then
      ((coreCands cs).map (fun tr => (c :: tr.1, tr.2))) ++ coreCands (c :: cs)
    else coreCands (c :: cs)
  | [] => []

/-- Case-insensitive literal match of `re.escape(name_variant)` at the
head of a suffix; returns the remaining text on success. -/
def matchCI : List Char → List Char → Option (List Char)
  | [], s => some s
  | _ :: _, [] => none
  | p :: ps, c :: cs => if toLowerPy p = toLowerPy c then matchCI ps cs else none

/-- Matcher for `[\s\S]{0,fuel}?` followed by the number token: returns
the token captured at the nearest offset (lazy gap), preferring the
highest-priority alternative there (nothing follows the group in
pattern 1, so the first alternative is the capture). -/
def findTokenWithin : Nat → List Char → Option (List Char)
  | 0, s =>
    match numTokenCands s with
    | tr :: _ => some tr.1
    | [] => none
  | fuel + 1, s =>
    match numTokenCands s with
    | tr :: _ => some tr.1
    | [] =>
      match s with
      | _ :: rest => findTokenWithin fuel rest
      | [] => none

/-- Does the alias occur at some offset `0..fuel` from this suffix
(the lazy gap `[\s\S]{0,fuel}?` of pattern 2 followed by the alias)? -/
def aliasWithin (a : List Char) : Nat → List Char → Bool
  | 0, s => (matchCI a s).isSome
  | fuel + 1, s =>
    match matchCI a s with
    | some _ => true
    | none =>
      match s with
      | _ :: rest => aliasWithin a fuel rest
      | [] => false

/-- Pattern 2 continuation: try the capture-group alternatives in
priority order, keeping the first whose remainder has the alias within
20 characters. -/
def tryCands (a : List Char) : List (List Char × List Char) → Option (List Char)
  | [] => none
  | tr :: more => if aliasWithin a 20 tr.2 then some tr.1 else tryCands a more

/-- `re.search` of pattern 1 (`alias[\s\S]{0,60}?(number)`): leftmost
starting position wins; returns the captured number token. -/
def searchP1 (a : List Char) : List Char → Option (List Char)
  | [] =>
    (match matchCI a [] with
     | some rest => findTokenWithin 60 rest
     | none => none)
  | c :: s' =>
    match (match matchCI a (c :: s') with
           | some rest => findTokenWithin 60 rest
           | none => none) with
    | some t => some t
    | none => searchP1 a s'

/-- `re.search` of pattern 2 (`(number)[\s\S]{0,20}?alias`): leftmost
starting position wins; at a position the group alternatives are tried
in backtracking priority order; returns the captured number token. -/
def searchP2 (a : List Char) : List Char → Option (List Char)
  | [] => tryCands a (numTokenCands [])
  | c :: s' =>
    match tryCands a (numTokenCands (c :: s')) with
    | some t => some t
    | none => searchP2 a s'

/-- The per-alias search of `extract_biomarkers_from_text`: pattern 1
(name then number) first, then pattern 2 (number then name). -/
def searchAlias (a : List Char) (text : List Char) : Option (List Char) :=
  match searchP1 a text with
  | some raw => some raw
  | none => searchP2 a text

/-- Digit string to natural number. -/
def digitsToNat (l : List Char) : Nat :=
  l.foldl (fun n c => n * 10 + (c.toNat - '0'.toNat)) 0

/-- Strip leading and trailing whitespace, as Python `float` does. -/
def stripWS (l : List Char) : List Char :=
  ((l.dropWhile isWS).reverse.dropWhile isWS).reverse

/-- The unsigned part of the Python `float(str)` grammar reachable in
this program: decimal digits with an optional `.`-separated fractional
part (at least one digit overall); anything else fails. -/
def parseDecimalCore (u : List Char) : Option ℚ :=
  let ip := splitWhile isDigitC u
  match ip.2 with
  | [] => if ip.1 = [] then none else some (mkRat (digitsToNat ip.1) 1)
  | sep :: r2 =>
    if sep = '.' then
      let fp := splitWhile isDigitC r2
      if fp.2 = [] then
        if ip.1 = [] ∧ fp.1 = [] then none
        else
          some (mkRat (digitsToNat ip.1 * 10 ^ fp.1.length + digitsToNat fp.1)
                  (10 ^ fp.1.length))
      else none
    else none

/-- The fragment of Python `float(str)` reachable in this program:
optional surrounding whitespace, an optional sign, then the unsigned
decimal grammar. -/
def parseDecimal (l : List Char) : Option ℚ :=
  match stripWS l with
  | c :: u =>
    if c = '-' then (parseDecimalCore u).map (fun q => -q)
    else if c = '+' then parseDecimalCore u
    else parseDecimalCore (c :: u)
  | [] => parseDecimalCore []

/-- The candidate clean-up of `extract_biomarkers_from_text`:
`raw.replace(' ', '').replace('\t', '')` then `replace(',', '.')`. -/
def cleanRaw (raw : List Char) : List Char :=
  (raw.filter (fun c => ¬(c = ' ' ∨ c = '\t'))).map
    (fun c => if c = ',' then '.' else c)

/-- Removal of a leading `<` or `>` bound marker before parsing. -/
def stripBound : List Char → List Char
  | [] => []
  | c :: cs => if c = '<' ∨ c = '>' then cs else c :: cs

/-- Full per-candidate numeric processing: clean, strip the bound
prefix, parse with `float` (`None` models the `except` branch). -/
def parseRaw (raw : List Char) : Option ℚ :=
  parseDecimal (stripBound (cleanRaw raw))

/-- One entry of the `BIOMARKER_RANGES` table. -/
structure BiomarkerDef where
  key : String
  unit : String
  min : ℚ
  max : ℚ
  names : List String
deriving DecidableEq, Repr

/-- The module-level `BIOMARKER_RANGES` catalogue, in source order.
Decimal bounds are written as exact rationals over ten (`mkRat 4 10`
is the source's `0.4`, and so on), kept kernel-computable. -/
def BIOMARKER_RANGES : List BiomarkerDef :=
  [⟨"TSH", "mg/dL", mkRat 4 10, mkRat 40 10, ["TSH", "tsh"]⟩,
   ⟨"T3", "pg/ml", mkRat 23 10, mkRat 42 10, ["T3", "t3", "triiodothyronine"]⟩,
   ⟨"T4", "ng/dL", mkRat 8 10, mkRat 18 10, ["T4", "t4", "thyroxine"]⟩,
   ⟨"B12", "pg/dL", mkRat 200 1, mkRat 900 1,
     ["B12", "b12", "vitamin B12", "cobalamin"]⟩,
   ⟨"Folate", "ng/dL", mkRat 20 10, mkRat 50 10,
     ["Folate", "folate", "folic acid"]⟩,
   ⟨"Vitamin D", "ng/ml", mkRat 30 1, mkRat 50 1,
     ["Vitamin D", "vitamin d", "25-OH Vitamin D", "calcitriol"]⟩,
   ⟨"Ceruloplasmin", "mg/dL", mkRat 20 1, mkRat 40 1,
     ["Ceruloplasmin", "ceruloplasmin", "serum ceruloplasmin"]⟩,
   ⟨"Alpha-synuclein", "ng/ml", mkRat 12 10, mkRat 18 10,
     ["alpha-synuclein", "Î±-synuclein", "CSF alpha-synuclein"]⟩,
   ⟨"Phospho-tau", "pg/ml", mkRat 20 1, mkRat 40 1,
     ["phospho tau", "phospho-tau", "p-tau", "CSF phospho-tau"]⟩,
   ⟨"NFL", "pg/ml", mkRat 0 1, mkRat 1000 1,
     ["NFL", "neurofilament light", "CSF NFL"]⟩]

/-- An extracted biomarker record.  The regex path always carries a
registry key and no unit; the GenAI path may carry a raw (or missing)
name and an optional unit, so `name` is an `Option`. -/
structure EB where
  name : Option String
  value : ℚ
  unit : Option String
deriving DecidableEq, Repr

/-- The inner alias loop of `extract_biomarkers_from_text` for one
definition: try each alias in order; a found-but-unparseable candidate
is discarded (`except: continue`) and the next alias is tried; the
first successful parse wins. -/
def tryAliases (text : List Char) : List String → Option ℚ
  | [] => none
  | a :: rest =>
    match searchAlias a.toList text with
    | some raw =>
      match parseRaw raw with
      | some v => some v
      | none => tryAliases text rest
    | none => tryAliases text rest

/-- The outer loop of `extract_biomarkers_from_text`: one pass over the
registry in source order, appending at most one `{name, value}` record
per definition. -/
def extract_core (text : List Char) : List EB :=
  BIOMARKER_RANGES.filterMap (fun d =>
    (tryAliases text d.names).map (fun v => ⟨some d.key, v, none⟩))

/-- `extract_biomarkers_from_text(text)`: the `if not text` guard covers
both `None` and the empty string. -/
def extract_biomarkers_from_text : Option (List Char) → List EB
  | none => []
  | some t => if t = [] then [] else extract_core t

/-- The `{"risk": ..., "score": ...}` result of `assess_biomarker_risk`. -/
structure RiskAssessment where
  risk : String
  score : Nat
deriving DecidableEq, Repr

/-- The per-entry abnormality test of `assess_biomarker_risk`: a name
present in `BIOMARKER_RANGES` whose value is strictly below `min` or
strictly above `max`; unknown names are ignored. -/
def isAbnormal (b : EB) : Bool :=
  match b.name with
  | some n =>
    match BIOMARKER_RANGES.find? (fun d => d.key = n) with
    | some d => decide (b.value < d.min ∨ b.value > d.max)
    | none => false
  | none => false

/-- `assess_biomarker_risk(biomarkers)`. -/
def assess_biomarker_risk (biomarkers : List EB) : RiskAssessment :=
  if biomarkers = [] then ⟨"low", 0⟩
  else
    let abnormal_count := biomarkers.countP isAbnormal
    if abnormal_count = 0 then ⟨"low", 10⟩
    else if abnormal_count = 1 then ⟨"moderate", 45⟩
    else if abnormal_count ≤ 3 then ⟨"moderate", 55⟩
    else ⟨"high", 75⟩

/-- A JSON scalar as it can reach `float(val)` in the GenAI result
loop: a number, a string, or `null`. -/
inductive JVal where
  | num (q : ℚ)
  | str (s : String)
  | jnull
deriving DecidableEq, Repr

/-- One object of the JSON array returned by the model:
`item.get('name')`, `item.get('biomarker')`, `item.get('value')` and
the optional `unit` key. -/
structure JItem where
  name : Option String
  biomarker : Option String
  value : Option JVal
  unit : Option String
deriving DecidableEq, Repr

/-- The environment of `genai_extract_biomarkers`: whether the client
imported, the two recognized credential variables, and the outcomes of
the collaborator steps (`Except` errors model raised exceptions;
`loads` models `json.loads` restricted to arrays of objects). -/
structure GenAIEnv where
  importable : Bool
  googleKey : Option String
  genaiKey : Option String
  chat : Except String String
  genText : Except String String
  findJson : String → Option String
  loads : String → Except String (List JItem)

/-- Python truthiness of an optional string (`None` and `""` are
falsy). -/
def pyTruthy : Option String → Bool
  | none => false
  | some s => ¬(s = "")

/-- Python `a or b` on optional strings. -/
def pyOrStr (a b : Option String) : Option String :=
  if pyTruthy a then a else b

/-- Python `str.lower()` on the alphabet in play. -/
def lowerStr (s : String) : String := String.mk (s.data.map toLowerPy)

/-- Value coercion of the GenAI result loop: strings get
`replace(',', '.')` and are parsed with `float`; numbers pass through;
anything else raises and the entry is skipped. -/
def coerceVal : Option JVal → Option ℚ
  | some (.num q) => some q
  | some (.str s) =>
    parseDecimal ((s.toList).map (fun c => if c = ',' then '.' else c))
  | _ => none

/-- Name normalization of the GenAI result loop: first registry entry
whose aliases contain the lowered name or whose key equals it
case-insensitively; a falsy name never matches. -/
def lookupKeyByAlias (name : Option String) : Option String :=
  match name with
  | none => none
  | some n =>
    if n = "" then none
    else
      (BIOMARKER_RANGES.find? (fun d =>
        (d.names.map lowerStr).contains (lowerStr n) ∨
          lowerStr n = lowerStr d.key)).map (fun d => d.key)

/-- One iteration of the `for item in parsed` loop: compute the name,
coerce the value (`continue` on failure), normalize the name, and build
the result record. -/
def coerceItem (item : JItem) : Option EB :=
  let name := pyOrStr item.name item.biomarker
  match coerceVal item.value with
  | none => none
  | some v =>
    some ⟨(match lookupKeyByAlias name with
           | some k => some k
           | none => name), v, item.unit⟩

/-- The response-obtaining step (lines 182-188 of the source): the chat
interface first; on an exception, the `generate_text` interface; an
exception there propagates to the outer handler. -/
def chatContent (env : GenAIEnv) : Except String String :=
  match env.chat with
  | .ok c => Except.ok c
  | .error _ => env.genText

/-- The JSON-locating and parsing step (lines 190-202): look for the
first JSON-array-of-objects substring; parse it, or parse the whole
response when none is found; `none` models the two explicit
`return None` branches on parse failure. -/
def parsedItems (env : GenAIEnv) (content : String) : Option (List JItem) :=
  match env.findJson content with
  | none =>
    match env.loads content with
    | .ok p => some p
    | .error _ => none
  | some sub =>
    match env.loads sub with
    | .ok p => some p
    | .error _ => none

/-- The body of the outer `try` of `genai_extract_biomarkers` after the
availability checks: obtain the response text, locate and parse a JSON
array (an explicit `return None` is `.ok none`), and run the result
loop.  An `.error` models an uncaught exception reaching the outer
handler. -/
def genaiBody (env : GenAIEnv) : Except String (Option (List EB)) := do
  let content ← chatContent env
  match parsedItems env content with
  | none => Except.ok none
  | some parsed => Except.ok (some (parsed.filterMap coerceItem))

/-- `genai_extract_biomarkers(text)` over the collaborator environment:
unavailable client or missing credential returns `None`; the body runs
under a catch-all that converts any exception into `None`. -/
def genai_extract_biomarkers (env : GenAIEnv) : Option (List EB) :=
  if env.importable = false then none
  else
    let api_key := pyOrStr env.googleKey env.genaiKey
    if pyTruthy api_key = false then none
    else
      match genaiBody env with
      | .ok r => r
      | .error _ => none

/-- The strategy-selection step of `analyze_report` (lines 281-292):
the GenAI attempt is guarded by `try/except` (an `.error` outcome is
treated as `None`), and only a `None` result falls back to the regex
extractor. -/
def orchestrate_with (llm : Except Unit (Option (List EB))) (text : List Char) :
    List EB :=
  let biomarkers : Option (List EB) :=
    match llm with
    | .error _ => none
    | .ok r => r
  match biomarkers with
  | none => extract_biomarkers_from_text (some text)
  | some l => l

/-- The collaborators of `analyze_report`: the text each file-type
extractor would return (`none` models its failure), and the GenAI
environment. -/
structure AnalyzeEnv where
  pdfText : Option (List Char)
  imgText : Option (List Char)
  csvText : Option (List Char)
  genai : GenAIEnv

/-- Which collaborators and strategies a run of `analyze_report`
invoked, in order. -/
inductive Call where
  | pdf
  | image
  | csv
  | llm
  | regex
deriving DecidableEq, Repr

/-- The result object of `analyze_report`. -/
inductive AnalyzeResult where
  | err (msg : String)
  | success (biomarkers : List EB) (risk : RiskAssessment)
deriving DecidableEq, Repr

/-- The final component of a POSIX path (`Path(p).name`). -/
def lastComponent (l : List Char) : List Char :=
  l.foldl (fun acc c => if c = '/' then [] else acc ++ [c]) []

/-- `Path(p).suffix`: the extension of the final component — from the
last dot, provided that dot is neither the first nor the last
character of the name. -/
def pySuffix (name : List Char) : List Char :=
  let r := name.reverse
  let afterDot := r.takeWhile (fun c => ¬(c = '.'))
  if afterDot.length = r.length then []
  else
    let i := r.length - 1 - afterDot.length
    if 0 < i ∧ 0 < afterDot.length then name.drop i else []

/-- The `file_ext` computed by `analyze_report`:
`Path(file_path).suffix.lower()`. -/
def fileExtOf (path : List Char) : List Char :=
  (pySuffix (lastComponent path)).map toLowerPy

/-- The tail of `analyze_report` once a collaborator was chosen: a
`None` text is the terminal extraction-failure error; otherwise the
orchestrator picks a strategy and the risk scorer runs. -/
def afterText (env : AnalyzeEnv) (c : Call) (text : Option (List Char)) :
    AnalyzeResult × List Call :=
  match text with
  | none => (.err "Failed to extract text from file", [c])
  | some t =>
    let llmRes := genai_extract_biomarkers env.genai
    let biomarkers := orchestrate_with (.ok llmRes) t
    (.success biomarkers (assess_biomarker_risk biomarkers),
     c :: .llm :: (match llmRes with | none => [.regex] | some _ => []))

/-- `analyze_report(file_path)` with an explicit invocation log. -/
def analyze_report (env : AnalyzeEnv) (path : List Char) :
    AnalyzeResult × List Call :=
  let file_ext := fileExtOf path
  if file_ext = ".pdf".toList then afterText env .pdf env.pdfText
  else if file_ext = ".jpg".toList ∨ file_ext = ".jpeg".toList ∨
      file_ext = ".png".toList then afterText env .image env.imgText
  else if file_ext = ".csv".toList then afterText env .csv env.csvText
  else (.err ("Unsupported file type: " ++ String.mk file_ext), [])

/-- The spec's wording of the Risk Scorer count, stated independently of
the implementation: the number of entries whose name matches a Registry
key and whose value is strictly below that definition's `min` or
strictly above its `max`. -/
def abnormal_count_spec (l : List EB) : Nat :=
  (l.filter (fun b =>
    decide (∃ d ∈ BIOMARKER_RANGES,
      b.name = some d.key ∧ (b.value < d.min ∨ b.value > d.max)))).length

/-- The registry's canonical keys are pairwise distinct. -/
theorem biomarker_keys_nodup :
    (BIOMARKER_RANGES.map (fun d => d.key)).Nodup := by decide

/-- The per-entry abnormality test agrees with the spec's wording. -/
theorem isAbnormal_iff (b : EB) :
    isAbnormal b = true ↔
      ∃ d ∈ BIOMARKER_RANGES,
        b.name = some d.key ∧ (b.value < d.min ∨ b.value > d.max) := by
  unfold isAbnormal
  cases hn : b.name with
  | none => simp
  | some n =>
    cases hf : BIOMARKER_RANGES.find? (fun d => d.key = n) with
    | none =>
      simp only [hf, Bool.false_eq_true, false_iff]
      rintro ⟨d, hd, hkey, -⟩
      have hne := List.find?_eq_none.mp hf d hd
      have hkn : d.key = n := by injection hkey with h; exact h.symm
      simp [hkn] at hne
    | some d =>
      have hdkey : d.key = n := by simpa using List.find?_some hf
      have hdmem : d ∈ BIOMARKER_RANGES := List.mem_of_find?_eq_some hf
      simp only [hf]
      constructor
      · intro h
        refine ⟨d, hdmem, by rw [hdkey], ?_⟩
        simpa using h
      · rintro ⟨d', hd', hkey', hval'⟩
        have hk' : d'.key = n := by injection hkey' with h; exact h.symm
        have hdd : d' = d :=
          List.inj_on_of_nodup_map biomarker_keys_nodup hd' hdmem
            (hk'.trans hdkey.symm)
        subst hdd
        simpa using hval'

/-- The implementation's abnormal count is the spec's abnormal count. -/
theorem abnormal_count_eq (l : List EB) :
    l.countP isAbnormal = abnormal_count_spec l := by
  unfold abnormal_count_spec
  rw [← List.countP_eq_length_filter]
  exact List.countP_congr (fun b _ => by
    rw [isAbnormal_iff]
    simp)

/-- The risk scorer, with its local `abnormal_count` binding
zeta-expanded (definitional). -/
theorem assess_shape (l : List EB) :
    assess_biomarker_risk l =
      (if l = [] then ⟨"low", 0⟩
       else if l.countP isAbnormal = 0 then ⟨"low", 10⟩
       else if l.countP isAbnormal = 1 then ⟨"moderate", 45⟩
       else if l.countP isAbnormal ≤ 3 then ⟨"moderate", 55⟩
       else ⟨"high", 75⟩) := rfl

/-- C1. The Risk Scorer counts as abnormal exactly the entries whose
name matches a Registry key and whose value is strictly below that
definition's min or strictly above its max (non-Registry names are
ignored), and maps the empty list to (low, 0), zero abnormalities on a
non-empty list to (low, 10), one abnormality to (moderate, 45), two or
three to (moderate, 55), and four or more to (high, 75). -/
theorem C1_risk_scorer_contract (l : List EB) :
    assess_biomarker_risk l =
      (if l = [] then ⟨"low", 0⟩
       else if abnormal_count_spec l = 0 then ⟨"low", 10⟩
       else if abnormal_count_spec l = 1 then ⟨"moderate", 45⟩
       else if abnormal_count_spec l ≤ 3 then ⟨"moderate", 55⟩
       else ⟨"high", 75⟩) := by
  rw [assess_shape, abnormal_count_eq]

/-- C9. On every input the Risk Scorer's score is one of
{0, 10, 45, 55, 75} and its risk is one of {low, moderate, high}:
no score above 75 or strictly between the five constants occurs. -/
theorem C9_risk_scorer_range (l : List EB) :
    (assess_biomarker_risk l).score ∈ [0, 10, 45, 55, 75] ∧
      (assess_biomarker_risk l).risk ∈ ["low", "moderate", "high"] := by
  rw [assess_shape]
  split_ifs <;> simp

/-- C8. The risk score is monotone in the abnormal count: if two lists
have abnormal counts a1 < a2 with a1 ≥ 1, the second list's score is at
least the first list's. -/
theorem C8_risk_monotone (l1 l2 : List EB)
    (h1 : 1 ≤ l1.countP isAbnormal)
    (h12 : l1.countP isAbnormal < l2.countP isAbnormal) :
    (assess_biomarker_risk l1).score ≤ (assess_biomarker_risk l2).score := by
  have hne1 : ¬(l1 = []) := by
    rintro rfl
    rw [List.countP_nil] at h1
    omega
  have hne2 : ¬(l2 = []) := by
    rintro rfl
    rw [List.countP_nil] at h12
    omega
  rw [assess_shape, assess_shape, if_neg hne1, if_neg hne2]
  split_ifs <;> first
    | decide
    | (exfalso; omega)

/-- C8 witness: a list with one abnormal entry scores at most a list
with two abnormal entries (45 ≤ 55 here). -/
theorem C8_risk_monotone_witness :
    (assess_biomarker_risk [⟨some "TSH", mkRat 5 1, none⟩]).score ≤
      (assess_biomarker_risk
        [⟨some "TSH", mkRat 5 1, none⟩, ⟨some "T3", mkRat 5 1, none⟩]).score := by
  have e1 : List.countP isAbnormal [⟨some "TSH", mkRat 5 1, none⟩] = 1 := by rfl
  have e2 : List.countP isAbnormal
      [⟨some "TSH", mkRat 5 1, none⟩, ⟨some "T3", mkRat 5 1, none⟩] = 2 := by rfl
  exact C8_risk_monotone _ _ (by rw [e1]) (by rw [e1, e2]; omega)

/-- C3. The Extraction Orchestrator: a raised LLM attempt counts as
null; a null result (and only a null result) falls back to the pattern
extractor; a non-null LLM result, even an empty list, is used as-is. -/
theorem C3_orchestrator (llm : Except Unit (Option (List EB)))
    (text : List Char) :
    orchestrate_with llm text =
      (match llm with
       | .ok (some l) => l
       | .ok none => extract_biomarkers_from_text (some text)
       | .error _ => extract_biomarkers_from_text (some text)) := by
  rcases llm with e | r
  · rfl
  · rcases r with - | l <;> rfl

/-- C2. Candidate normalization: every captured token is processed by
removing space and tab characters, turning a comma into a decimal
point, removing a leading bound marker, and parsing as a float; a parse
failure only discards that candidate (the alias loop continues); and
the two concrete behaviours: text "T3: 3,1" yields value 3.1 and text
"NFL <50" yields value 50.0. -/
theorem C2_token_normalization :
    (∀ raw : List Char,
      parseRaw raw = parseDecimal (stripBound (cleanRaw raw))) ∧
    (∀ (text : List Char) (a : String) (rest : List String),
      tryAliases text (a :: rest) =
        (match searchAlias a.toList text with
         | some raw =>
           (match parseRaw raw with
            | some v => some v
            | none => tryAliases text rest)
         | none => tryAliases text rest)) ∧
    extract_biomarkers_from_text (some ("T3: 3,1".toList)) =
      [⟨some "T3", 3.1, none⟩] ∧
    extract_biomarkers_from_text (some ("NFL <50".toList)) =
      [⟨some "NFL", 50.0, none⟩] := by
  refine ⟨fun raw => rfl, fun text a rest => rfl, ?_, ?_⟩
  · have h : extract_biomarkers_from_text (some ("T3: 3,1".toList)) =
        [⟨some "T3", mkRat 31 10, none⟩] := by rfl
    have hv : (mkRat 31 10 : ℚ) = 3.1 := by norm_num [Rat.mkRat_eq_div]
    rw [h, hv]
  · have h : extract_biomarkers_from_text (some ("NFL <50".toList)) =
        [⟨some "NFL", mkRat 50 1, none⟩] := by rfl
    have hv : (mkRat 50 1 : ℚ) = 50.0 := by norm_num [Rat.mkRat_eq_div]
    rw [h, hv]

/-- C5. End-to-end scenario: on the given report text the pattern
extractor finds T4 = 0.5 (via the "thyroxine" alias), B12 = 950 and
Folate = 1.0, all three abnormal, so the abnormal count is 3 and the
assessment is (moderate, 55). -/
theorem C5_scenario :
    extract_biomarkers_from_text
        (some ("Thyroxine level: 0.5 ng/dL, Folate 1.0 ng/dL, B12 950 pg/dL".toList)) =
      [⟨some "T4", 0.5, none⟩, ⟨some "B12", 950, none⟩,
       ⟨some "Folate", 1.0, none⟩] ∧
    abnormal_count_spec
        (extract_biomarkers_from_text
          (some ("Thyroxine level: 0.5 ng/dL, Folate 1.0 ng/dL, B12 950 pg/dL".toList))) = 3 ∧
    assess_biomarker_risk
        (extract_biomarkers_from_text
          (some ("Thyroxine level: 0.5 ng/dL, Folate 1.0 ng/dL, B12 950 pg/dL".toList))) =
      ⟨"moderate", 55⟩ := by
  refine ⟨?_, by rfl, by rfl⟩
  have h : extract_biomarkers_from_text
      (some ("Thyroxine level: 0.5 ng/dL, Folate 1.0 ng/dL, B12 950 pg/dL".toList)) =
      [⟨some "T4", mkRat 5 10, none⟩, ⟨some "B12", mkRat 950 1, none⟩,
       ⟨some "Folate", mkRat 10 10, none⟩] := by rfl
  have hv1 : (mkRat 5 10 : ℚ) = 0.5 := by norm_num [Rat.mkRat_eq_div]
  have hv2 : (mkRat 950 1 : ℚ) = 950 := by norm_num [Rat.mkRat_eq_div]
  have hv3 : (mkRat 10 10 : ℚ) = 1.0 := by norm_num [Rat.mkRat_eq_div]
  rw [h, hv1, hv2, hv3]

/-- C6. Dispatch errors of the Report Analyzer: an extension outside
{.pdf, .jpg, .jpeg, .png, .csv} yields exactly the unsupported-type
error with no collaborator or strategy invoked (empty call log), and a
null text result from the chosen collaborator yields the terminal
extraction-failure error with only that collaborator invoked. -/
theorem C6_dispatch (env : AnalyzeEnv) (path : List Char) :
    (fileExtOf path ∉
        [".pdf".toList, ".jpg".toList, ".jpeg".toList, ".png".toList,
         ".csv".toList] →
      analyze_report env path =
        (.err ("Unsupported file type: " ++ String.mk (fileExtOf path)), [])) ∧
    (fileExtOf path = ".pdf".toList → env.pdfText = none →
      analyze_report env path =
        (.err "Failed to extract text from file", [.pdf])) ∧
    ((fileExtOf path = ".jpg".toList ∨ fileExtOf path = ".jpeg".toList ∨
        fileExtOf path = ".png".toList) → env.imgText = none →
      analyze_report env path =
        (.err "Failed to extract text from file", [.image])) ∧
    (fileExtOf path = ".csv".toList → env.csvText = none →
      analyze_report env path =
        (.err "Failed to extract text from file", [.csv])) := by
  refine ⟨?_, ?_, ?_, ?_⟩
  · intro h
    simp only [List.mem_cons, List.not_mem_nil, or_false, not_or] at h
    obtain ⟨h1, h2, h3, h4, h5⟩ := h
    unfold analyze_report
    rw [if_neg h1, if_neg (by tauto), if_neg h5]
  · intro h hn
    unfold analyze_report
    rw [if_pos h, hn]
    rfl
  · intro h hn
    have hpdf : ¬(fileExtOf path = ".pdf".toList) := by
      rcases h with h | h | h <;> rw [h] <;> decide
    unfold analyze_report
    rw [if_neg hpdf, if_pos h, hn]
    rfl
  · intro h hn
    have hpdf : ¬(fileExtOf path = ".pdf".toList) := by rw [h]; decide
    have himg : ¬(fileExtOf path = ".jpg".toList ∨
        fileExtOf path = ".jpeg".toList ∨ fileExtOf path = ".png".toList) := by
      rw [h]; decide
    unfold analyze_report
    rw [if_neg hpdf, if_neg himg, if_pos h, hn]
    rfl

/-- A closed collaborator environment for exercising the analyzer:
all text extractors fail and the GenAI client is absent. -/
def env0 : AnalyzeEnv :=
  ⟨none, none, none,
   ⟨false, none, none, .error "e", .error "e", fun _ => none,
    fun _ => .error "e"⟩⟩

/-- C6 witness: a .txt path produces exactly the unsupported-type error
with an empty call log, and a .pdf path whose collaborator fails
produces the extraction-failure error having invoked only the PDF
collaborator. -/
theorem C6_dispatch_witness :
    analyze_report env0 "report.txt".toList =
      (.err "Unsupported file type: .txt", []) ∧
    analyze_report env0 "scan.pdf".toList =
      (.err "Failed to extract text from file", [.pdf]) := by
  constructor
  · exact ((C6_dispatch env0 "report.txt".toList).1 (by decide)).trans (by rfl)
  · exact (C6_dispatch env0 "scan.pdf".toList).2.1 (by rfl) rfl

/-- C4 counterexample environment: the collaborator is available, a
credential is present, the response parses to a single item whose
value cannot be coerced (`float("abc")` raises). -/
def envBadCoerce : GenAIEnv :=
  ⟨true, some "key", none, .ok "resp", .ok "resp", fun _ => some "sub",
   fun _ => .ok [⟨some "TSH", none, some (.str "abc"), none⟩]⟩

/-- C4 counterexample: a failure in value coercion is NOT converted to
a null return — the entry is skipped and the extractor returns the
(here empty) remaining list, refuting the claim that any failure in
the extraction sequence, value coercion included, yields null. -/
theorem C4_counterexample :
    coerceVal (some (.str "abc")) = none ∧
    genai_extract_biomarkers envBadCoerce = some [] ∧
    (some [] : Option (List EB)) ≠ none := by
  exact ⟨by rfl, by rfl, by simp⟩

/-- C4 (amended). The LLM extractor path is total (it can never raise):
an absent client or missing/falsy credential yields null; an exception
in both response interfaces yields null; a response in which no JSON
array parses yields null; and on a parsed response the result is the
item list with each non-coercible entry silently skipped (not a null
return). -/
theorem C4_genai_error_handling (env : GenAIEnv) :
    (env.importable = false → genai_extract_biomarkers env = none) ∧
    (pyTruthy (pyOrStr env.googleKey env.genaiKey) = false →
      genai_extract_biomarkers env = none) ∧
    (∀ e, chatContent env = .error e → genai_extract_biomarkers env = none) ∧
    (∀ content, chatContent env = .ok content →
      parsedItems env content = none → genai_extract_biomarkers env = none) ∧
    (∀ content parsed, env.importable = true →
      pyTruthy (pyOrStr env.googleKey env.genaiKey) = true →
      chatContent env = .ok content → parsedItems env content = some parsed →
      genai_extract_biomarkers env = some (parsed.filterMap coerceItem)) := by
  refine ⟨?_, ?_, ?_, ?_, ?_⟩
  · intro h
    simp [genai_extract_biomarkers, h]
  · intro h
    by_cases himp : env.importable = false
    · simp [genai_extract_biomarkers, himp]
    · simp [genai_extract_biomarkers, himp, h]
  · intro e hc
    by_cases himp : env.importable = false
    · simp [genai_extract_biomarkers, himp]
    · by_cases hk : pyTruthy (pyOrStr env.googleKey env.genaiKey) = false
      · simp [genai_extract_biomarkers, himp, hk]
      · simp [genai_extract_biomarkers, genaiBody, himp, hk, hc, Bind.bind,
          Except.bind]
  · intro content hc hp
    by_cases himp : env.importable = false
    · simp [genai_extract_biomarkers, himp]
    · by_cases hk : pyTruthy (pyOrStr env.googleKey env.genaiKey) = false
      · simp [genai_extract_biomarkers, himp, hk]
      · simp [genai_extract_biomarkers, genaiBody, himp, hk, hc, hp, Bind.bind,
          Except.bind]
  · intro content parsed himp hk hc hp
    simp [genai_extract_biomarkers, genaiBody, himp, hk, hc, hp, Bind.bind,
      Except.bind]

/-- An always-failing GenAI environment: the client did not import. -/
def envNoClient : GenAIEnv :=
  ⟨false, some "k", none, .ok "x", .ok "x", fun _ => none, fun _ => .error "e"⟩

/-- A fully working GenAI environment returning one TSH item. -/
def envOk : GenAIEnv :=
  ⟨true, some "k", none, .ok "x", .ok "x", fun _ => some "sub",
   fun _ => .ok [⟨some "tsh", none, some (.num (mkRat 9 2)), some "mg/dL"⟩]⟩

/-- C4 witness: the amended theorem applied at a client-less
environment (null result) and at a working environment (the parsed,
name-normalized item list). -/
theorem C4_genai_error_handling_witness :
    genai_extract_biomarkers envNoClient = none ∧
    genai_extract_biomarkers envOk =
      some [⟨some "TSH", mkRat 9 2, some "mg/dL"⟩] := by
  constructor
  · exact (C4_genai_error_handling envNoClient).1 rfl
  · exact ((C4_genai_error_handling envOk).2.2.2.2 "x"
      [⟨some "tsh", none, some (.num (mkRat 9 2)), some "mg/dL"⟩]
      rfl rfl rfl rfl).trans (by rfl)

/-- The extracted names follow the registry: one pass over any list of
definitions appends, per definition, at most one entry carrying that
definition's key, so the name sequence is a sublist of the key
sequence. -/
theorem names_sublist_keys (t : List Char) (L : List BiomarkerDef) :
    ((L.filterMap (fun d => (tryAliases t d.names).map
        (fun v => (⟨some d.key, v, none⟩ : EB)))).map EB.name).Sublist
      (L.map (fun d => some d.key)) := by
  induction L with
  | nil => simp
  | cons d L ih =>
    rw [List.filterMap_cons, List.map_cons]
    cases h : tryAliases t d.names with
    | none => simp only [Option.map_none']; exact ih.cons _
    | some v =>
      simp only [Option.map_some', List.map_cons]
      exact ih.cons₂ _

/-- The option-valued registry key sequence has no duplicates. -/
theorem biomarker_some_keys_nodup :
    (BIOMARKER_RANGES.map (fun d => some d.key)).Nodup := by decide

/-- In a duplicate-free list each element is counted at most once. -/
theorem countP_eq_le_one {α : Type} [DecidableEq α] (l : List α)
    (hl : l.Nodup) (a : α) : l.countP (fun x => x = a) ≤ 1 := by
  induction l with
  | nil => simp
  | cons x xs ih =>
    rw [List.countP_cons]
    rcases List.nodup_cons.mp hl with ⟨hx, hxs⟩
    by_cases hxa : x = a
    · subst hxa
      have hz : xs.countP (fun y => decide (y = x)) = 0 := by
        rw [List.countP_eq_zero]
        intro y hy
        simp only [decide_eq_true_eq]
        rintro rfl
        exact hx hy
      simp [hz]
    · have hd : (decide (x = a)) = false := by simp [hxa]
      simp only [hd, if_false]
      exact Nat.le_trans (Nat.le_of_eq (Nat.add_zero _)) (ih hxs)

/-- C7. The Pattern Extractor returns at most one entry per biomarker
definition, its output names form a sublist of the Registry key
sequence (registry iteration order, absent biomarkers contributing
nothing), and null or empty text yields the empty list. -/
theorem C7_extraction_order (t : List Char) (k : String) :
    ((extract_biomarkers_from_text (some t)).map EB.name).Sublist
        (BIOMARKER_RANGES.map (fun d => some d.key)) ∧
    (extract_biomarkers_from_text (some t)).countP
        (fun b => b.name = some k) ≤ 1 ∧
    extract_biomarkers_from_text none = [] ∧
    extract_biomarkers_from_text (some []) = [] := by
  have e : extract_biomarkers_from_text (some t) =
      if t = [] then [] else extract_core t := rfl
  have hsub : ((extract_biomarkers_from_text (some t)).map EB.name).Sublist
      (BIOMARKER_RANGES.map (fun d => some d.key)) := by
    rw [e]
    by_cases ht : t = []
    · simp [ht]
    · rw [if_neg ht]
      exact names_sublist_keys t BIOMARKER_RANGES
  refine ⟨hsub, ?_, rfl, rfl⟩
  have h1 : (extract_biomarkers_from_text (some t)).countP
      (fun b => b.name = some k) =
      ((extract_biomarkers_from_text (some t)).map EB.name).countP
      (fun x => x = some k) := by
    rw [List.countP_map]
    rfl
  have h2 : ((extract_biomarkers_from_text (some t)).map EB.name).countP
      (fun x => x = some k) ≤
      (BIOMARKER_RANGES.map (fun d => some d.key)).countP
      (fun x => x = some k) := hsub.countP_le _
  have h3 : (BIOMARKER_RANGES.map (fun d => some d.key)).countP
      (fun x => x = some k) ≤ 1 :=
    countP_eq_le_one _ biomarker_some_keys_nodup _
  omega

/-- A digit character's code point lies between 48 and 57. -/
theorem digit_toNat {c : Char} (h : isDigitC c = true) :
    48 ≤ c.toNat ∧ c.toNat ≤ 57 := by
  simp only [isDigitC, Bool.and_eq_true, decide_eq_true_eq] at h
  constructor
  · have := h.1
    rw [Char.le_def] at this
    exact this
  · have := h.2
    rw [Char.le_def] at this
    exact this

/-- A digit character is none of the special characters handled by the
clean-up, the bound-marker removal, the sign match or the whitespace
classes. -/
theorem digit_ne {c : Char} (h : isDigitC c = true) (x : Char)
    (hx : isDigitC x = false) : c ≠ x := by
  intro heq
  rw [heq, hx] at h
  cases h

/-- A digit character is not whitespace. -/
theorem digit_not_ws {c : Char} (h : isDigitC c = true) : isWS c = false := by
  have h1 := digit_ne h ' ' (by decide)
  have h2 := digit_ne h '\t' (by decide)
  have h3 := digit_ne h '\n' (by decide)
  have h4 := digit_ne h '\r' (by decide)
  have h5 := digit_ne h '\x0b' (by decide)
  have h6 := digit_ne h '\x0c' (by decide)
  simp [isWS, h1, h2, h3, h4, h5, h6]

/-- `splitWhile` splits its input. -/
theorem splitWhile_append (p : Char → Bool) (l : List Char) :
    (splitWhile p l).1 ++ (splitWhile p l).2 = l := by
  induction l with
  | nil => rfl
  | cons c cs ih =>
    by_cases hp : p c = true <;> simp [splitWhile, hp, ih]

/-- Every character of the run returned by `splitWhile` satisfies the
predicate. -/
theorem splitWhile_all (p : Char → Bool) (l : List Char) :
    ∀ c ∈ (splitWhile p l).1, p c = true := by
  induction l with
  | nil => simp [splitWhile]
  | cons c cs ih =>
    by_cases hp : p c = true
    · simp only [splitWhile, hp, if_true]
      intro x hx
      rcases List.mem_cons.mp hx with rfl | hx
      · exact hp
      · exact ih x hx
    · simp [splitWhile, hp]

/-- `splitWhile` on an all-satisfying list consumes everything. -/
theorem splitWhile_all_of (p : Char → Bool) (l : List Char)
    (h : ∀ c ∈ l, p c = true) : splitWhile p l = (l, []) := by
  induction l with
  | nil => rfl
  | cons c cs ih =>
    have hc : p c = true := h c (List.mem_cons_self c cs)
    simp [splitWhile, hc, ih (fun x hx => h x (List.mem_cons_of_mem c hx))]

/-- `splitWhile` passes over an all-satisfying front segment. -/
theorem splitWhile_append_of_all (p : Char → Bool) (ds v : List Char)
    (h : ∀ c ∈ ds, p c = true) :
    splitWhile p (ds ++ v) =
      (ds ++ (splitWhile p v).1, (splitWhile p v).2) := by
  induction ds with
  | nil => simp
  | cons c cs ih =>
    have hc : p c = true := h c (List.mem_cons_self c cs)
    simp [splitWhile, hc, ih (fun x hx => h x (List.mem_cons_of_mem c hx))]

/-- Every member of `splitsDesc` is a split of the input with a
nonempty front part. -/
theorem splitsDesc_mem {l : List Char} {pq : List Char × List Char}
    (h : pq ∈ splitsDesc l) : pq.1 ≠ [] ∧ pq.1 ++ pq.2 = l := by
  induction l generalizing pq with
  | nil => simp [splitsDesc] at h
  | cons c cs ih =>
    simp only [splitsDesc, List.mem_append, List.mem_map,
      List.mem_singleton] at h
    rcases h with ⟨q, hq, rfl⟩ | rfl
    · rcases ih hq with ⟨h1, h2⟩
      exact ⟨by simp, by simp [h2]⟩
    · exact ⟨by simp, rfl⟩

/-- Shape of the consumed part of a fraction alternative: empty, or a
separator followed by a nonempty digit run. -/
def FracShape (f : List Char) : Prop :=
  f = [] ∨ ∃ sep fs, f = sep :: fs ∧ (sep = '.' ∨ sep = ',') ∧ fs ≠ [] ∧
    ∀ c ∈ fs, isDigitC c = true

/-- Shape of a prefix-free token alternative: whitespace, one to three
digits, and an optional fraction. -/
def CoreShape (t : List Char) : Prop :=
  ∃ ws ds fr, t = ws ++ (ds ++ fr) ∧ (∀ c ∈ ws, isWS c = true) ∧
    (∀ c ∈ ds, isDigitC c = true) ∧ ds ≠ [] ∧ ds.length ≤ 3 ∧ FracShape fr

/-- Shape of a full token alternative: an optional bound marker in
front of a `CoreShape`. -/
def TokenShape (t : List Char) : Prop :=
  ∃ pfx r, t = pfx ++ r ∧ (pfx = [] ∨ pfx = ['<'] ∨ pfx = ['>']) ∧
    CoreShape r

/-- Every fraction alternative has `FracShape`. -/
theorem fracCands_shape {s : List Char} {fr : List Char × List Char}
    (h : fr ∈ fracCands s) : FracShape fr.1 := by
  match s with
  | [] =>
    simp only [fracCands, List.mem_singleton] at h
    rw [h]
    exact Or.inl rfl
  | sep :: r2 =>
    simp only [fracCands] at h
    by_cases hsep : sep = '.' ∨ sep = ','
    · rw [if_pos hsep] at h
      rcases List.mem_append.mp h with h | h
      · rcases List.mem_map.mp h with ⟨pq, hpq, rfl⟩
        rcases splitsDesc_mem hpq with ⟨h1, h2⟩
        refine Or.inr ⟨sep, pq.1, rfl, hsep, h1, fun c hc => ?_⟩
        have : c ∈ (splitWhile isDigitC r2).1 := by
          rw [← h2]
          exact List.mem_append_left _ hc
        exact splitWhile_all isDigitC r2 c this
      · rw [List.mem_singleton.mp h]
        exact Or.inl rfl
    · rw [if_neg hsep] at h
      rw [List.mem_singleton.mp h]
      exact Or.inl rfl

/-- Every prefix-free alternative has `CoreShape`. -/
theorem coreCands_shape {s : List Char} {tr : List Char × List Char}
    (h : tr ∈ coreCands s) : CoreShape tr.1 := by
  unfold coreCands at h
  by_cases hd : ((splitWhile isDigitC (splitWhile isWS s).2).1.take 3) = []
  · rw [if_pos hd] at h
    simp at h
  · rw [if_neg hd] at h
    rcases List.mem_flatMap.mp h with ⟨dp, hdp, htr⟩
    rcases splitsDesc_mem hdp with ⟨hdp1, hdp2⟩
    have hdigits : ∀ c ∈ dp.1, isDigitC c = true := by
      intro c hc
      have h1 : c ∈ (splitWhile isDigitC (splitWhile isWS s).2).1.take 3 := by
        rw [← hdp2]
        exact List.mem_append_left _ hc
      exact splitWhile_all isDigitC _ c (List.take_subset 3 _ h1)
    have hlen : dp.1.length ≤ 3 := by
      have h1 : dp.1.length ≤
          ((splitWhile isDigitC (splitWhile isWS s).2).1.take 3).length := by
        rw [← hdp2, List.length_append]
        omega
      have h2 := List.length_take_le 3
        (splitWhile isDigitC (splitWhile isWS s).2).1
      omega
    by_cases hdp2e : dp.2 = []
    · rw [if_pos hdp2e] at htr
      rcases List.mem_map.mp htr with ⟨fr, hfr, rfl⟩
      refine ⟨(splitWhile isWS s).1, dp.1, fr.1, by simp, ?_, hdigits, hdp1,
        hlen, fracCands_shape hfr⟩
      exact splitWhile_all isWS s
    · rw [if_neg hdp2e] at htr
      rw [List.mem_singleton.mp htr]
      refine ⟨(splitWhile isWS s).1, dp.1, [], by simp, ?_, hdigits, hdp1,
        hlen, Or.inl rfl⟩
      exact splitWhile_all isWS s

/-- Every alternative of the capture group has `TokenShape`. -/
theorem numTokenCands_shape {s : List Char} {tr : List Char × List Char}
    (h : tr ∈ numTokenCands s) : TokenShape tr.1 := by
  match s with
  | [] => simp [numTokenCands] at h
  | c :: cs =>
    simp only [numTokenCands] at h
    by_cases hc : c = '<' ∨ c = '>'
    · rw [if_pos hc] at h
      rcases List.mem_append.mp h with h | h
      · rcases List.mem_map.mp h with ⟨q, hq, rfl⟩
        refine ⟨[c], q.1, rfl, ?_, coreCands_shape hq⟩
        rcases hc with rfl | rfl
        · exact Or.inr (Or.inl rfl)
        · exact Or.inr (Or.inr rfl)
      · exact ⟨[], tr.1, by simp, Or.inl rfl, coreCands_shape h⟩
    · rw [if_neg hc] at h
      exact ⟨[], tr.1, by simp, Or.inl rfl, coreCands_shape h⟩

/-- Clean-up distributes over concatenation. -/
theorem cleanRaw_append (a b : List Char) :
    cleanRaw (a ++ b) = cleanRaw a ++ cleanRaw b := by
  simp [cleanRaw, List.filter_append]

/-- The comma-to-dot map is the identity on comma-free lists. -/
theorem map_comma_id (l : List Char) (h : ∀ c ∈ l, ¬(c = ',')) :
    l.map (fun c => if c = ',' then '.' else c) = l := by
  induction l with
  | nil => rfl
  | cons c cs ih =>
    rw [List.map_cons, if_neg (h c (List.mem_cons_self c cs)),
      ih (fun x hx => h x (List.mem_cons_of_mem c hx))]

/-- Clean-up is the identity on a digit run. -/
theorem cleanRaw_digits (ds : List Char) (h : ∀ c ∈ ds, isDigitC c = true) :
    cleanRaw ds = ds := by
  unfold cleanRaw
  have hf : ds.filter (fun c => ¬(c = ' ' ∨ c = '\t')) = ds := by
    rw [List.filter_eq_self]
    intro c hc
    have h1 := digit_ne (h c hc) ' ' (by decide)
    have h2 := digit_ne (h c hc) '\t' (by decide)
    simp [h1, h2]
  rw [hf]
  exact map_comma_id ds (fun c hc => digit_ne (h c hc) ',' (by decide))

/-- Clean-up on a whitespace run keeps a (possibly shorter) whitespace
run. -/
theorem cleanRaw_ws (ws : List Char) (h : ∀ c ∈ ws, isWS c = true) :
    ∀ c ∈ cleanRaw ws, isWS c = true := by
  intro c hc
  unfold cleanRaw at hc
  rcases List.mem_map.mp hc with ⟨x, hx, rfl⟩
  have hxw : isWS x = true := h x (List.mem_filter.mp hx).1
  have hxc : ¬(x = ',') := by
    intro hcomma
    rw [hcomma] at hxw
    exact absurd hxw (by decide)
  rw [if_neg hxc]
  exact hxw

/-- Clean-up sends a fraction component to a dot followed by the same
digits. -/
theorem cleanRaw_frac (sep : Char) (fs : List Char)
    (hsep : sep = '.' ∨ sep = ',') (hfs : ∀ c ∈ fs, isDigitC c = true) :
    cleanRaw (sep :: fs) = '.' :: fs := by
  have hone : cleanRaw [sep] = ['.'] := by
    rcases hsep with rfl | rfl <;> rfl
  have : sep :: fs = [sep] ++ fs := rfl
  rw [this, cleanRaw_append, hone, cleanRaw_digits fs hfs]
  rfl

/-- Bound-marker removal is the identity when the head is neither `<`
nor `>`. -/
theorem stripBound_eq_self {l : List Char}
    (h : ∀ c, l.head? = some c → ¬(c = '<' ∨ c = '>')) : stripBound l = l := by
  match l with
  | [] => rfl
  | c :: cs =>
    have hc := h c rfl
    simp [stripBound, hc]

/-- Dropping leading whitespace passes over a whitespace run. -/
theorem dropWhile_ws_append (ws u : List Char)
    (h : ∀ c ∈ ws, isWS c = true) :
    List.dropWhile isWS (ws ++ u) = List.dropWhile isWS u := by
  induction ws with
  | nil => rfl
  | cons c cs ih =>
    have hc : isWS c = true := h c (List.mem_cons_self c cs)
    simp only [List.cons_append, List.dropWhile_cons, hc, if_true]
    exact ih (fun x hx => h x (List.mem_cons_of_mem c hx))

/-- Dropping leading whitespace is the identity on whitespace-free
lists. -/
theorem dropWhile_eq_self_of_no_ws (u : List Char)
    (h : ∀ c ∈ u, isWS c = false) : List.dropWhile isWS u = u := by
  match u with
  | [] => rfl
  | c :: cs =>
    have hc : isWS c = false := h c (List.mem_cons_self c cs)
    simp [List.dropWhile_cons, hc]

/-- Whitespace stripping removes exactly a leading whitespace run when
the remainder is whitespace-free. -/
theorem stripWS_ws_append (ws u : List Char) (hws : ∀ c ∈ ws, isWS c = true)
    (hu : ∀ c ∈ u, isWS c = false) : stripWS (ws ++ u) = u := by
  unfold stripWS
  rw [dropWhile_ws_append ws u hws, dropWhile_eq_self_of_no_ws u hu,
    dropWhile_eq_self_of_no_ws u.reverse
      (fun c hc => hu c (List.mem_reverse.mp hc)),
    List.reverse_reverse]

/-- Folding digits from any accumulator stays below the positional
bound. -/
theorem foldl_digits_lt (l : List Char) (h : ∀ c ∈ l, isDigitC c = true) :
    ∀ a : Nat,
      List.foldl (fun n c => n * 10 + (c.toNat - '0'.toNat)) a l <
        (a + 1) * 10 ^ l.length := by
  induction l with
  | nil => intro a; simp
  | cons c cs ih =>
    intro a
    rw [List.foldl_cons, List.length_cons]
    have hc := digit_toNat (h c (List.mem_cons_self c cs))
    have hz : '0'.toNat = 48 := by decide
    have hd : c.toNat - '0'.toNat ≤ 9 := by omega
    have hstep := ih (fun x hx => h x (List.mem_cons_of_mem c hx))
      (a * 10 + (c.toNat - '0'.toNat))
    have h1 : a * 10 + (c.toNat - '0'.toNat) + 1 ≤ (a + 1) * 10 := by omega
    calc List.foldl (fun n c => n * 10 + (c.toNat - '0'.toNat))
          (a * 10 + (c.toNat - '0'.toNat)) cs
        < (a * 10 + (c.toNat - '0'.toNat) + 1) * 10 ^ cs.length := hstep
      _ ≤ ((a + 1) * 10) * 10 ^ cs.length := Nat.mul_le_mul_right _ h1
      _ = (a + 1) * 10 ^ (cs.length + 1) := by ring

/-- The value of a digit run is below ten to its length. -/
theorem digitsToNat_lt (l : List Char) (h : ∀ c ∈ l, isDigitC c = true) :
    digitsToNat l < 10 ^ l.length := by
  have := foldl_digits_lt l h 0
  simpa [digitsToNat] using this

/-- Evaluation of `float` on leading whitespace followed by a bare
digit run. -/
theorem parseDecimal_eval₁ (W ds : List Char)
    (hW : ∀ c ∈ W, isWS c = true) (hds : ∀ c ∈ ds, isDigitC c = true)
    (hne : ds ≠ []) :
    parseDecimal (W ++ ds) = some (mkRat (digitsToNat ds) 1) := by
  obtain ⟨d, ds', rfl⟩ := List.exists_cons_of_ne_nil hne
  have hd : isDigitC d = true := hds d (List.mem_cons_self d ds')
  have hst : stripWS (W ++ d :: ds') = d :: ds' :=
    stripWS_ws_append W _ hW (fun c hc => digit_not_ws (hds c hc))
  unfold parseDecimal
  rw [hst]
  change (if d = '-' then (parseDecimalCore ds').map (fun q => -q)
          else if d = '+' then parseDecimalCore ds'
          else parseDecimalCore (d :: ds')) = _
  rw [if_neg (digit_ne hd '-' (by decide)),
    if_neg (digit_ne hd '+' (by decide))]
  unfold parseDecimalCore
  rw [splitWhile_all_of isDigitC (d :: ds') hds]
  simp

/-- Evaluation of `float` on leading whitespace, a digit run, a dot and
a trailing digit run. -/
theorem parseDecimal_eval₂ (W ds fs : List Char)
    (hW : ∀ c ∈ W, isWS c = true) (hds : ∀ c ∈ ds, isDigitC c = true)
    (hne : ds ≠ []) (hfs : ∀ c ∈ fs, isDigitC c = true) :
    parseDecimal (W ++ (ds ++ '.' :: fs)) =
      some (mkRat (digitsToNat ds * 10 ^ fs.length + digitsToNat fs)
        (10 ^ fs.length)) := by
  obtain ⟨d, ds', rfl⟩ := List.exists_cons_of_ne_nil hne
  have hd : isDigitC d = true := hds d (List.mem_cons_self d ds')
  have hnws : ∀ c ∈ (d :: ds') ++ '.' :: fs, isWS c = false := by
    intro c hc
    rcases List.mem_append.mp hc with hc | hc
    · exact digit_not_ws (hds c hc)
    · rcases List.mem_cons.mp hc with rfl | hc
      · decide
      · exact digit_not_ws (hfs c hc)
  have hst : stripWS (W ++ ((d :: ds') ++ '.' :: fs)) = (d :: ds') ++ '.' :: fs :=
    stripWS_ws_append W _ hW hnws
  unfold parseDecimal
  rw [hst]
  have hcons : (d :: ds') ++ '.' :: fs = d :: (ds' ++ '.' :: fs) := rfl
  rw [hcons]
  change (if d = '-' then (parseDecimalCore (ds' ++ '.' :: fs)).map (fun q => -q)
          else if d = '+' then parseDecimalCore (ds' ++ '.' :: fs)
          else parseDecimalCore (d :: (ds' ++ '.' :: fs))) = _
  rw [if_neg (digit_ne hd '-' (by decide)),
    if_neg (digit_ne hd '+' (by decide))]
  unfold parseDecimalCore
  have hsplit : splitWhile isDigitC (d :: (ds' ++ '.' :: fs)) =
      ((d :: ds') ++ (splitWhile isDigitC ('.' :: fs)).1,
       (splitWhile isDigitC ('.' :: fs)).2) := by
    have := splitWhile_append_of_all isDigitC (d :: ds') ('.' :: fs) hds
    simpa using this
  have hdot : splitWhile isDigitC ('.' :: fs) = ([], '.' :: fs) := by
    have hnd : isDigitC '.' = false := by decide
    simp [splitWhile, hnd]
  rw [hdot] at hsplit
  rw [hsplit]
  have hfsplit : splitWhile isDigitC fs = (fs, []) :=
    splitWhile_all_of isDigitC fs hfs
  simp [hfsplit]

/-- A `mkRat` of a bounded digit run is in `[0, 1000)`. -/
theorem mkRat_digits_bound (ds : List Char)
    (hds : ∀ c ∈ ds, isDigitC c = true) (hlen : ds.length ≤ 3) :
    0 ≤ mkRat (digitsToNat ds) 1 ∧ mkRat (digitsToNat ds) 1 < 1000 := by
  rw [Rat.mkRat_eq_div]
  have hv : digitsToNat ds < 1000 := by
    have h1 := digitsToNat_lt ds hds
    have h2 : (10 : Nat) ^ ds.length ≤ 10 ^ 3 :=
      Nat.pow_le_pow_right (by omega) hlen
    omega
  constructor
  · positivity
  · have h1 : ((1 : ℕ) : ℚ) = 1 := by norm_num
    rw [h1, div_one]
    exact_mod_cast hv

/-- A `mkRat` combining a bounded integer digit run with a fraction is
in `[0, 1000)`. -/
theorem mkRat_digits_frac_bound (ds fs : List Char)
    (hds : ∀ c ∈ ds, isDigitC c = true) (hlen : ds.length ≤ 3)
    (hfs : ∀ c ∈ fs, isDigitC c = true) :
    0 ≤ mkRat (digitsToNat ds * 10 ^ fs.length + digitsToNat fs)
        (10 ^ fs.length) ∧
      mkRat (digitsToNat ds * 10 ^ fs.length + digitsToNat fs)
        (10 ^ fs.length) < 1000 := by
  rw [Rat.mkRat_eq_div]
  have hA : digitsToNat ds < 1000 := by
    have h1 := digitsToNat_lt ds hds
    have h2 : (10 : Nat) ^ ds.length ≤ 10 ^ 3 :=
      Nat.pow_le_pow_right (by omega) hlen
    omega
  have hC : digitsToNat fs < 10 ^ fs.length := digitsToNat_lt fs hfs
  have hB : 0 < (10 : Nat) ^ fs.length := Nat.pos_pow_of_pos _ (by omega)
  have hnat : digitsToNat ds * 10 ^ fs.length + digitsToNat fs <
      1000 * 10 ^ fs.length := by
    calc digitsToNat ds * 10 ^ fs.length + digitsToNat fs
        < digitsToNat ds * 10 ^ fs.length + 10 ^ fs.length := by omega
      _ = (digitsToNat ds + 1) * 10 ^ fs.length := by ring
      _ ≤ 1000 * 10 ^ fs.length := Nat.mul_le_mul_right _ (by omega)
  have hBQ : (0 : ℚ) < (((10 : Nat) ^ fs.length : Nat) : ℚ) := by
    exact_mod_cast hB
  constructor
  · positivity
  · rw [div_lt_iff₀ hBQ]
    exact_mod_cast hnat

/-- Whitespace characters are not bound markers. -/
theorem ws_not_bound {c : Char} (h : isWS c = true) : ¬(c = '<' ∨ c = '>') := by
  rintro (rfl | rfl) <;> exact absurd h (by decide)

/-- Any successfully parsed capture-group alternative has a value in
`[0, 1000)`: the token admits no sign and at most three integer
digits. -/
theorem parseRaw_shaped {t : List Char} (h : TokenShape t) :
    ∀ v, parseRaw t = some v → 0 ≤ v ∧ v < 1000 := by
  obtain ⟨pfx, r, rfl, hpfx, ws, ds, fr, rfl, hws, hds, hne, hlen, hfr⟩ := h
  obtain ⟨d0, ds', rfl⟩ := List.exists_cons_of_ne_nil hne
  have hd0 : isDigitC d0 = true := hds d0 (List.mem_cons_self d0 ds')
  have hclean_pfx : cleanRaw pfx = pfx := by
    rcases hpfx with rfl | rfl | rfl <;> rfl
  have hW' : ∀ c ∈ cleanRaw ws, isWS c = true := cleanRaw_ws ws hws
  rcases hfr with rfl | ⟨sep, fs, rfl, hsep, hfne, hfs⟩
  · -- no fraction
    have hc : cleanRaw (pfx ++ (ws ++ (d0 :: ds' ++ []))) =
        pfx ++ (cleanRaw ws ++ (d0 :: ds')) := by
      rw [List.append_nil, cleanRaw_append, cleanRaw_append, hclean_pfx,
        cleanRaw_digits (d0 :: ds') hds]
    have hhead : ∀ c, (cleanRaw ws ++ (d0 :: ds')).head? = some c →
        ¬(c = '<' ∨ c = '>') := by
      intro c hc'
      cases hWc : cleanRaw ws with
      | nil =>
        rw [hWc, List.nil_append, List.head?_cons] at hc'
        obtain rfl := Option.some.inj hc'
        rintro (rfl | rfl)
        · exact absurd hd0 (by decide)
        · exact absurd hd0 (by decide)
      | cons w W'' =>
        rw [hWc, List.cons_append, List.head?_cons] at hc'
        have hcw := Option.some.inj hc'
        rw [← hcw]
        exact ws_not_bound (hW' w (by rw [hWc]; exact List.mem_cons_self w W''))
    have hstrip : stripBound (pfx ++ (cleanRaw ws ++ (d0 :: ds'))) =
        cleanRaw ws ++ (d0 :: ds') := by
      rcases hpfx with rfl | rfl | rfl
      · rw [List.nil_append]
        exact stripBound_eq_self hhead
      · simp [stripBound]
      · simp [stripBound]
    have heval : parseDecimal (cleanRaw ws ++ (d0 :: ds')) =
        some (mkRat (digitsToNat (d0 :: ds')) 1) :=
      parseDecimal_eval₁ _ _ hW' hds (by simp)
    intro v hv
    have : parseRaw (pfx ++ (ws ++ (d0 :: ds' ++ []))) =
        some (mkRat (digitsToNat (d0 :: ds')) 1) := by
      unfold parseRaw
      rw [hc, hstrip, heval]
    rw [this] at hv
    obtain rfl := Option.some.inj hv
    exact mkRat_digits_bound (d0 :: ds') hds hlen
  · -- with fraction
    have hc : cleanRaw (pfx ++ (ws ++ (d0 :: ds' ++ sep :: fs))) =
        pfx ++ (cleanRaw ws ++ ((d0 :: ds') ++ '.' :: fs)) := by
      rw [cleanRaw_append, cleanRaw_append, hclean_pfx, cleanRaw_append,
        cleanRaw_digits (d0 :: ds') hds, cleanRaw_frac sep fs hsep hfs]
    have hhead : ∀ c, (cleanRaw ws ++ ((d0 :: ds') ++ '.' :: fs)).head? = some c →
        ¬(c = '<' ∨ c = '>') := by
      intro c hc'
      cases hWc : cleanRaw ws with
      | nil =>
        rw [hWc, List.nil_append, List.cons_append, List.head?_cons] at hc'
        obtain rfl := Option.some.inj hc'
        rintro (rfl | rfl)
        · exact absurd hd0 (by decide)
        · exact absurd hd0 (by decide)
      | cons w W'' =>
        rw [hWc, List.cons_append, List.head?_cons] at hc'
        have hcw := Option.some.inj hc'
        rw [← hcw]
        exact ws_not_bound (hW' w (by rw [hWc]; exact List.mem_cons_self w W''))
    have hstrip : stripBound (pfx ++ (cleanRaw ws ++ ((d0 :: ds') ++ '.' :: fs))) =
        cleanRaw ws ++ ((d0 :: ds') ++ '.' :: fs) := by
      rcases hpfx with rfl | rfl | rfl
      · rw [List.nil_append]
        exact stripBound_eq_self hhead
      · simp [stripBound]
      · simp [stripBound]
    have heval : parseDecimal (cleanRaw ws ++ ((d0 :: ds') ++ '.' :: fs)) =
        some (mkRat (digitsToNat (d0 :: ds') * 10 ^ fs.length + digitsToNat fs)
          (10 ^ fs.length)) :=
      parseDecimal_eval₂ _ _ _ hW' hds (by simp) hfs
    intro v hv
    have : parseRaw (pfx ++ (ws ++ (d0 :: ds' ++ sep :: fs))) =
        some (mkRat (digitsToNat (d0 :: ds') * 10 ^ fs.length + digitsToNat fs)
          (10 ^ fs.length)) := by
      unfold parseRaw
      rw [hc, hstrip, heval]
    rw [this] at hv
    obtain rfl := Option.some.inj hv
    exact mkRat_digits_frac_bound (d0 :: ds') fs hds hlen hfs

/-- Unfolding equation of the lazy-gap scan at fuel zero. -/
theorem findTokenWithin_zero (s : List Char) :
    findTokenWithin 0 s =
      (match numTokenCands s with
       | tr :: _ => some tr.1
       | [] => none) := rfl

/-- Unfolding equation of the lazy-gap scan at positive fuel. -/
theorem findTokenWithin_succ (f : Nat) (s : List Char) :
    findTokenWithin (f + 1) s =
      (match numTokenCands s with
       | tr :: _ => some tr.1
       | [] =>
         match s with
         | _ :: rest => findTokenWithin f rest
         | [] => none) := rfl

/-- A token found by the lazy-gap scan is a capture-group alternative
at some suffix. -/
theorem findTokenWithin_cand {fuel : Nat} {s t : List Char}
    (h : findTokenWithin fuel s = some t) :
    ∃ s' tr, tr ∈ numTokenCands s' ∧ tr.1 = t := by
  induction fuel generalizing s with
  | zero =>
    rw [findTokenWithin_zero] at h
    cases hc : numTokenCands s with
    | nil => rw [hc] at h; cases h
    | cons tr rest =>
      rw [hc] at h
      exact ⟨s, tr, by rw [hc]; exact List.mem_cons_self _ _,
        Option.some.inj h⟩
  | succ f ih =>
    rw [findTokenWithin_succ] at h
    cases hc : numTokenCands s with
    | cons tr rest =>
      rw [hc] at h
      exact ⟨s, tr, by rw [hc]; exact List.mem_cons_self _ _,
        Option.some.inj h⟩
    | nil =>
      rw [hc] at h
      cases s with
      | nil => cases h
      | cons c rest => exact ih h

/-- A token selected by the pattern-2 continuation is one of the
offered alternatives. -/
theorem tryCands_cand {a t : List Char} {cl : List (List Char × List Char)}
    (h : tryCands a cl = some t) : ∃ tr ∈ cl, tr.1 = t := by
  induction cl with
  | nil => cases h
  | cons tr more ih =>
    unfold tryCands at h
    by_cases hw : aliasWithin a 20 tr.2 = true
    · rw [if_pos hw] at h
      exact ⟨tr, List.mem_cons_self _ _, Option.some.inj h⟩
    · rw [if_neg hw] at h
      obtain ⟨tr', htr', he⟩ := ih h
      exact ⟨tr', List.mem_cons_of_mem _ htr', he⟩

/-- A capture of pattern 1 is a capture-group alternative at some
suffix. -/
theorem searchP1_cand {a s t : List Char} (h : searchP1 a s = some t) :
    ∃ s' tr, tr ∈ numTokenCands s' ∧ tr.1 = t := by
  induction s with
  | nil =>
    unfold searchP1 at h
    cases hm : matchCI a [] with
    | none => rw [hm] at h; cases h
    | some rest => rw [hm] at h; exact findTokenWithin_cand h
  | cons c s' ih =>
    unfold searchP1 at h
    cases hm : matchCI a (c :: s') with
    | none =>
      rw [hm] at h
      exact ih h
    | some rest =>
      rw [hm] at h
      change (match findTokenWithin 60 rest with
              | some t0 => some t0
              | none => searchP1 a s') = some t at h
      cases hf : findTokenWithin 60 rest with
      | none => rw [hf] at h; exact ih h
      | some t0 =>
        rw [hf] at h
        obtain rfl := Option.some.inj h
        exact findTokenWithin_cand hf

/-- A capture of pattern 2 is a capture-group alternative at some
suffix. -/
theorem searchP2_cand {a s t : List Char} (h : searchP2 a s = some t) :
    ∃ s' tr, tr ∈ numTokenCands s' ∧ tr.1 = t := by
  induction s with
  | nil =>
    unfold searchP2 at h
    obtain ⟨tr, htr, he⟩ := tryCands_cand h
    exact ⟨[], tr, htr, he⟩
  | cons c s' ih =>
    unfold searchP2 at h
    cases ht : tryCands a (numTokenCands (c :: s')) with
    | none =>
      rw [ht] at h
      exact ih h
    | some t0 =>
      rw [ht] at h
      obtain rfl := Option.some.inj h
      obtain ⟨tr, htr, he⟩ := tryCands_cand ht
      exact ⟨c :: s', tr, htr, he⟩

/-- Any raw candidate produced by the per-alias search is a
capture-group alternative. -/
theorem searchAlias_cand {a text raw : List Char}
    (h : searchAlias a text = some raw) :
    ∃ s' tr, tr ∈ numTokenCands s' ∧ tr.1 = raw := by
  unfold searchAlias at h
  cases h1 : searchP1 a text with
  | some t0 =>
    rw [h1] at h
    obtain rfl := Option.some.inj h
    exact searchP1_cand h1
  | none =>
    rw [h1] at h
    exact searchP2_cand h

/-- Any value produced by the alias loop is in `[0, 1000)`. -/
theorem tryAliases_bound {text : List Char} {names : List String} {v : ℚ}
    (h : tryAliases text names = some v) : 0 ≤ v ∧ v < 1000 := by
  induction names with
  | nil => cases h
  | cons a rest ih =>
    unfold tryAliases at h
    cases hs : searchAlias a.toList text with
    | none => rw [hs] at h; exact ih h
    | some raw =>
      rw [hs] at h
      change (match parseRaw raw with
              | some v0 => some v0
              | none => tryAliases text rest) = some v at h
      cases hp : parseRaw raw with
      | none => rw [hp] at h; exact ih h
      | some v' =>
        rw [hp] at h
        obtain rfl := Option.some.inj h
        obtain ⟨s', tr, htr, rfl⟩ := searchAlias_cand hs
        exact parseRaw_shaped (numTokenCands_shape htr) v' hp

/-- C10. Every entry returned by the Pattern Extractor has a value in
`[0, 1000)`: the number token admits no minus sign and at most three
integer digits. -/
theorem C10_value_bounds (t : Option (List Char)) (b : EB)
    (hb : b ∈ extract_biomarkers_from_text t) :
    0 ≤ b.value ∧ b.value < 1000 := by
  match t with
  | none => cases hb
  | some s =>
    have e : extract_biomarkers_from_text (some s) =
        if s = [] then [] else extract_core s := rfl
    rw [e] at hb
    by_cases hs : s = []
    · rw [if_pos hs] at hb
      cases hb
    · rw [if_neg hs] at hb
      unfold extract_core at hb
      obtain ⟨d, hd, hmap⟩ := List.mem_filterMap.mp hb
      cases hv : tryAliases s d.names with
      | none => rw [hv] at hmap; cases hmap
      | some v =>
        rw [hv, Option.map_some'] at hmap
        obtain rfl := Option.some.inj hmap
        exact tryAliases_bound hv

/-- C10 witness: the theorem applied to the single entry extracted from
a concrete report line. -/
theorem C10_value_bounds_witness :
    0 ≤ (EB.mk (some "TSH") (mkRat 25 10) none).value ∧
      (EB.mk (some "TSH") (mkRat 25 10) none).value < 1000 := by
  apply C10_value_bounds (some ("TSH 2.5".toList))
  have h : extract_biomarkers_from_text (some ("TSH 2.5".toList)) =
      [⟨some "TSH", mkRat 25 10, none⟩] := by rfl
  rw [h]
  exact List.mem_singleton.mpr rfl
